import Mathlib

/-!
Verification of the `souvenir` typed 64-bit identifier crate.

The core file `src/id.rs` is embedded directly.  The base32 codec
(`crate::encoding::{parse_base32, stringify_base32}`) and the `Error`
enum live in modules that are not part of the sources at hand, so they
are modelled from the specification (each such definition carries a
doc comment saying so).  Rust strings are modelled as `List Char`,
bytes as `Nat` below 256, and the 8-byte payload as a `List Nat` of
length 8 together with the well-formedness predicate `IsIdBytes`.
The logical-type parameter `T` of `Id<T>` only contributes its
constant `T::PREFIX`; it is modelled by passing that constant
(written `pfx`) explicitly to every operation that consults it.
-/

namespace Souvenir

/-- Big-endian interpretation of a byte list as a natural number
(the model of `u64::from_be_bytes` / `i64::from_be_bytes` composed
with the byte array). -/
def fromBeBytes : List Nat → Nat
  | [] => 0
  | b :: bs => b * 256 ^ bs.length + fromBeBytes bs

/-- The eight big-endian bytes of a 64-bit value
(the model of `u64::to_be_bytes`). -/
def toBeBytes (v : Nat) : List Nat :=
  [v / 2 ^ 56 % 256, v / 2 ^ 48 % 256, v / 2 ^ 40 % 256, v / 2 ^ 32 % 256,
   v / 2 ^ 24 % 256, v / 2 ^ 16 % 256, v / 2 ^ 8 % 256, v % 256]

/-- Well-formedness of a modelled `[u8; 8]` value: eight bytes, each
below 256. -/
def IsIdBytes (bs : List Nat) : Prop :=
  bs.length = 8 ∧ ∀ b ∈ bs, b < 256

instance (bs : List Nat) : Decidable (IsIdBytes bs) := by
  unfold IsIdBytes; infer_instance

/-- The identifier type of `id.rs`: a `PhantomData` marker (erased, it
holds no data) together with an 8-byte payload `value`. -/
structure Id where
  value : List Nat
deriving DecidableEq

/-- `Id::new`: total constructor, no validation. -/
def Id.new (bs : List Nat) : Id := ⟨bs⟩

/-- `Id::to_bytes`. -/
def Id.toBytes (a : Id) : List Nat := a.value

/-- `Id::to_u64`: `u64::from_be_bytes(self.value)`. -/
def Id.toU64 (a : Id) : Nat := fromBeBytes a.value

/-- `Id::to_i64`: `i64::from_be_bytes(self.value)` — the same bit
pattern read as a two's-complement signed integer. -/
def Id.toI64 (a : Id) : Int :=
  let n := fromBeBytes a.value
  if n < 2 ^ 63 then (n : Int) else (n : Int) - 2 ^ 64

/-- `From<u64> for Id<T>`: `Id::new(value.to_be_bytes())`. -/
def Id.fromU64 (v : Nat) : Id := ⟨toBeBytes v⟩

/-- `From<i64> for Id<T>`: `Id::new(value.to_be_bytes())`; the
two's-complement byte pattern of `v` is that of `v mod 2^64`. -/
def Id.fromI64 (v : Int) : Id := ⟨toBeBytes (Int.toNat (v % 2 ^ 64))⟩

/-- Strict lexicographic order on byte lists, as Rust's derived `Ord`
compares the `[u8; 8]` field (elementwise, first unequal byte decides;
the `PhantomData` marker always compares equal). -/
def lexLt : List Nat → List Nat → Bool
  | _, [] => false
  | [], _ :: _ => true
  | a :: as_, b :: bs_ =>
    if a < b then true else if a = b then lexLt as_ bs_ else false

/-- The `<` of the derived `Ord` on `Id<T>`. -/
def Id.lt (a b : Id) : Bool := lexLt a.value b.value

/-- Modelled from the spec: the decode-error taxonomy of the codec
module `crate::encoding`, which is not among the sources.  Wrong token
length, a symbol outside the alphabet, and a leading symbol implying
bits beyond bit 63. -/
inductive DecodeError where
  | invalidLength : Nat → DecodeError
  | invalidSymbol : Char → DecodeError
  | overflow : DecodeError
deriving DecidableEq

/-- Modelled from the spec: the encode-error of `stringify_base32`;
the spec keeps the operation fallible only for interface continuity. -/
inductive EncodeError where
  | valueTooLarge : EncodeError
deriving DecidableEq

/-- Modelled from the spec: the crate-root `Error` enum, not among the
sources.  `id.rs` names `Error::InvalidData` (the spec's
`InvalidFormat` kind: missing separator) and
`Error::PrefixMismatch { expected, actual }`; codec failures are
converted by `?` into the payload-error kind wrapping the decode
error. -/
inductive Error where
  | invalidData : Error
  | prefixMismatch : List Char → List Char → Error
  | invalidPayload : DecodeError → Error
deriving DecidableEq

/-- Modelled from the spec: the fixed lowercase unpadded base32
alphabet of the codec — digits and lowercase letters with the visually
ambiguous `i`, `l`, `o`, `u` excluded, consistent with the spec's
example token `4n3y65asan4bj`.  The separator `_` is not in it. -/
def alphabet : List Char := "0123456789abcdefghjkmnpqrstvwxyz".toList

/-- Symbol for a 5-bit digit value. -/
def encodeSym (d : Nat) : Char := alphabet.getD d '0'

/-- Digit value of a symbol, `none` when the character is outside the
alphabet. -/
def decodeSym (c : Char) : Option Nat := alphabet.findIdx? (fun x => x == c)

/-- The thirteen base-32 digits of a 64-bit value, most significant
first (64 bits are 12 full 5-bit groups plus a 4-bit top group, so the
leading digit is below 16 whenever the value fits in 64 bits). -/
def stringifyDigits (v : Nat) : List Nat :=
  [v / 32 ^ 12 % 32, v / 32 ^ 11 % 32, v / 32 ^ 10 % 32, v / 32 ^ 9 % 32,
   v / 32 ^ 8 % 32, v / 32 ^ 7 % 32, v / 32 ^ 6 % 32, v / 32 ^ 5 % 32,
   v / 32 ^ 4 % 32, v / 32 ^ 3 % 32, v / 32 ^ 2 % 32, v / 32 % 32, v % 32]

/-- Base-32 recomposition of a digit list, most significant first. -/
def fromBase32Digits : List Nat → Nat
  | [] => 0
  | d :: ds => d * 32 ^ ds.length + fromBase32Digits ds

/-- Modelled from the spec: `stringify_base32` of `crate::encoding`.
Encodes the 64-bit big-endian integer formed from the bytes into a
13-symbol token; the failure branch exists only for interface
continuity and is unreachable for any 8-byte input. -/
def stringifyBase32 (bs : List Nat) : Except EncodeError (List Char) :=
  let v := fromBeBytes bs
  if v < 32 ^ 13 then .ok ((stringifyDigits v).map encodeSym)
  else .error .valueTooLarge

/-- Left-to-right decoding of every symbol of a token, failing on the
first character outside the alphabet. -/
def decodeSymbols : List Char → Except DecodeError (List Nat)
  | [] => .ok []
  | c :: cs =>
    match decodeSym c with
    | none => .error (.invalidSymbol c)
    | some d => (decodeSymbols cs).map (fun ds => d :: ds)

/-- Modelled from the spec: `parse_base32` of `crate::encoding`.
Exact length 13, every symbol in the alphabet, leading symbol below 16
(otherwise the value would need bits beyond bit 63), then big-endian
recomposition into 8 bytes. -/
def parseBase32 (s : List Char) : Except DecodeError (List Nat) :=
  if s.length = 13 then
    match decodeSymbols s with
    | .error e => .error e
    | .ok ds =>
      if 16 ≤ ds.headD 0 then .error .overflow
      else .ok (toBeBytes (fromBase32Digits ds))
  else .error (.invalidLength s.length)

/-- `str::split_once('_')`: split at the first occurrence of the
separator, `none` when it does not occur. -/
def splitOnce : List Char → Option (List Char × List Char)
  | [] => none
  | c :: cs =>
    if c = '_' then some ([], cs)
    else (splitOnce cs).map (fun p => (c :: p.1, p.2))

/-- `Id::parse` of `id.rs`: split once on `_` (else
`Error::InvalidData`), compare the left part with `T::PREFIX` (else
`Error::PrefixMismatch`), then decode the right part with the codec,
propagating its failure. -/
def parse (pfx : List Char) (s : List Char) : Except Error Id :=
  match splitOnce s with
  | none => .error .invalidData
  | some (l, r) =>
    if l ≠ pfx then .error (.prefixMismatch pfx l)
    else
      match parseBase32 r with
      | .error e => .error (.invalidPayload e)
      | .ok bs => .ok (Id.new bs)

/-- `Id::test`: `Self::parse(value).is_ok()`. -/
def test (pfx : List Char) (s : List Char) : Bool := (parse pfx s).isOk

/-- `Display for Id<T>`: `"{}_{}"` with `T::PREFIX` and
`stringify_base32(self.value).expect(..)`; the `expect` panic on the
error branch is modelled by an empty token (claim C9 proves the
branch unreachable). -/
def format (pfx : List Char) (a : Id) : List Char :=
  pfx ++ '_' :: (match stringifyBase32 a.value with
                 | .ok t => t
                 | .error _ => [])

/-- `Debug for Id<T>`: `write!(f, "{}", self)` — delegates to the
display implementation. -/
def debugFmt (pfx : List Char) (a : Id) : List Char := format pfx a

/-- `FromStr for Id<T>`: `Self::parse(s)`. -/
def fromStr (pfx : List Char) (s : List Char) : Except Error Id := parse pfx s

end Souvenir

deriving instance DecidableEq for Except

namespace Souvenir

/-! ## Helper lemmas -/

theorem fromBeBytes_toBeBytes (v : Nat) (h : v < 2 ^ 64) :
    fromBeBytes (toBeBytes v) = v := by
  simp only [toBeBytes, fromBeBytes, List.length_cons, List.length_nil]
  norm_num
  omega

theorem isIdBytes_toBeBytes (v : Nat) : IsIdBytes (toBeBytes v) := by
  refine ⟨rfl, ?_⟩
  simp only [toBeBytes, List.mem_cons, List.not_mem_nil, or_false]
  rintro b (rfl | rfl | rfl | rfl | rfl | rfl | rfl | rfl) <;> omega

theorem toBeBytes_fromBeBytes (bs : List Nat) (h : IsIdBytes bs) :
    toBeBytes (fromBeBytes bs) = bs := by
  obtain ⟨hlen, hb⟩ := h
  rcases bs with _ | ⟨b0, bs⟩; · simp at hlen
  rcases bs with _ | ⟨b1, bs⟩; · simp at hlen
  rcases bs with _ | ⟨b2, bs⟩; · simp at hlen
  rcases bs with _ | ⟨b3, bs⟩; · simp at hlen
  rcases bs with _ | ⟨b4, bs⟩; · simp at hlen
  rcases bs with _ | ⟨b5, bs⟩; · simp at hlen
  rcases bs with _ | ⟨b6, bs⟩; · simp at hlen
  rcases bs with _ | ⟨b7, bs⟩; · simp at hlen
  rcases bs with _ | ⟨b8, bs⟩
  · simp only [List.mem_cons, List.not_mem_nil, or_false] at hb
    have h0 := hb b0 (by tauto)
    have h1 := hb b1 (by tauto)
    have h2 := hb b2 (by tauto)
    have h3 := hb b3 (by tauto)
    have h4 := hb b4 (by tauto)
    have h5 := hb b5 (by tauto)
    have h6 := hb b6 (by tauto)
    have h7 := hb b7 (by tauto)
    simp only [toBeBytes, fromBeBytes, List.length_cons, List.length_nil]
    norm_num
    omega
  · simp at hlen

theorem fromBeBytes_lt_of_bounds (bs : List Nat) (hb : ∀ b ∈ bs, b < 256) :
    fromBeBytes bs < 256 ^ bs.length := by
  induction bs with
  | nil => simp [fromBeBytes]
  | cons b bs ih =>
    simp only [fromBeBytes, List.length_cons]
    have h1 : b < 256 := hb b (by simp)
    have h2 : fromBeBytes bs < 256 ^ bs.length := ih (fun x hx => hb x (by simp [hx]))
    calc b * 256 ^ bs.length + fromBeBytes bs
        < b * 256 ^ bs.length + 256 ^ bs.length := by omega
      _ = (b + 1) * 256 ^ bs.length := by ring
      _ ≤ 256 * 256 ^ bs.length := by
          exact Nat.mul_le_mul_right _ (by omega)
      _ = 256 ^ (bs.length + 1) := by ring

theorem fromBeBytes_lt_u64 (bs : List Nat) (h : IsIdBytes bs) :
    fromBeBytes bs < 2 ^ 64 := by
  have := fromBeBytes_lt_of_bounds bs h.2
  rw [h.1] at this
  norm_num at this
  omega

theorem mod_mul_expand (v m : Nat) (hm : 0 < m) :
    v % (m * 32) = v / m % 32 * m + v % m := by
  conv_lhs => rw [← Nat.div_add_mod v m, ← Nat.div_add_mod (v / m) 32]
  rw [Nat.mul_add, show m * (32 * (v / m / 32)) = m * 32 * (v / m / 32) by ring,
    Nat.add_assoc, Nat.mul_add_mod]
  have h1 : v / m % 32 < 32 := Nat.mod_lt _ (by omega)
  have h2 : v % m < m := Nat.mod_lt _ hm
  have h3 : m * (v / m % 32) + v % m < m * 32 := by nlinarith
  rw [Nat.mod_eq_of_lt h3]
  ring

theorem fromBase32_stringifyDigits (v : Nat) (h : v < 32 ^ 13) :
    fromBase32Digits (stringifyDigits v) = v := by
  have inst : ∀ k : Nat, v % (32 ^ k * 32) = v / 32 ^ k % 32 * 32 ^ k + v % 32 ^ k :=
    fun k => mod_mul_expand v (32 ^ k) (by positivity)
  have e12 := inst 12; rw [show (32 : Nat) ^ 12 * 32 = 32 ^ 13 by norm_num] at e12
  have e11 := inst 11; rw [show (32 : Nat) ^ 11 * 32 = 32 ^ 12 by norm_num] at e11
  have e10 := inst 10; rw [show (32 : Nat) ^ 10 * 32 = 32 ^ 11 by norm_num] at e10
  have e9 := inst 9; rw [show (32 : Nat) ^ 9 * 32 = 32 ^ 10 by norm_num] at e9
  have e8 := inst 8; rw [show (32 : Nat) ^ 8 * 32 = 32 ^ 9 by norm_num] at e8
  have e7 := inst 7; rw [show (32 : Nat) ^ 7 * 32 = 32 ^ 8 by norm_num] at e7
  have e6 := inst 6; rw [show (32 : Nat) ^ 6 * 32 = 32 ^ 7 by norm_num] at e6
  have e5 := inst 5; rw [show (32 : Nat) ^ 5 * 32 = 32 ^ 6 by norm_num] at e5
  have e4 := inst 4; rw [show (32 : Nat) ^ 4 * 32 = 32 ^ 5 by norm_num] at e4
  have e3 := inst 3; rw [show (32 : Nat) ^ 3 * 32 = 32 ^ 4 by norm_num] at e3
  have e2 := inst 2; rw [show (32 : Nat) ^ 2 * 32 = 32 ^ 3 by norm_num] at e2
  have e1 := inst 1; rw [show (32 : Nat) ^ 1 * 32 = 32 ^ 2 by norm_num] at e1
  have e0 := inst 0; rw [show (32 : Nat) ^ 0 * 32 = 32 ^ 1 by norm_num] at e0
  have hv : v % 32 ^ 13 = v := Nat.mod_eq_of_lt h
  conv_rhs => rw [← hv, e12, e11, e10, e9, e8, e7, e6, e5, e4, e3, e2, e1, e0]
  simp only [stringifyDigits, fromBase32Digits, List.length_cons, List.length_nil]
  simp only [pow_zero, pow_one, Nat.div_one, Nat.mod_one, mul_one, add_zero]
  ring

theorem stringifyDigits_bounds (v : Nat) : ∀ d ∈ stringifyDigits v, d < 32 := by
  simp only [stringifyDigits, List.mem_cons, List.not_mem_nil, or_false]
  rintro d (rfl | rfl | rfl | rfl | rfl | rfl | rfl | rfl | rfl | rfl | rfl | rfl | rfl) <;> omega

theorem stringifyDigits_length (v : Nat) : (stringifyDigits v).length = 13 := rfl

set_option maxHeartbeats 1000000 in
theorem decodeSym_encodeSym : ∀ d, d < 32 → decodeSym (encodeSym d) = some d := by
  decide

theorem decodeSym_sep : decodeSym '_' = none := by decide

theorem decodeSymbols_map_encodeSym (ds : List Nat) (h : ∀ d ∈ ds, d < 32) :
    decodeSymbols (ds.map encodeSym) = .ok ds := by
  induction ds with
  | nil => rfl
  | cons d ds ih =>
    have hd : d < 32 := h d (by simp)
    simp only [List.map_cons, decodeSymbols, decodeSym_encodeSym d hd,
      ih (fun x hx => h x (by simp [hx]))]
    rfl

theorem decodeSymbols_sep_mem (cs : List Char) (h : ('_' : Char) ∈ cs) :
    ∃ e, decodeSymbols cs = .error e := by
  induction cs with
  | nil => simp at h
  | cons c cs ih =>
    by_cases hc : decodeSym c = none
    · exact ⟨.invalidSymbol c, by simp [decodeSymbols, hc]⟩
    · have hne : c ≠ '_' := by
        intro hceq
        rw [hceq, decodeSym_sep] at hc
        exact hc rfl
      have hmem : ('_' : Char) ∈ cs := by
        rcases List.mem_cons.mp h with h1 | h1
        · exact absurd h1.symm hne
        · exact h1
      obtain ⟨e, he⟩ := ih hmem
      obtain ⟨d, hd⟩ := Option.ne_none_iff_exists'.mp hc
      exact ⟨e, by simp [decodeSymbols, hd, he, Except.map]⟩

theorem splitOnce_append (l r : List Char) (h : ('_' : Char) ∉ l) :
    splitOnce (l ++ '_' :: r) = some (l, r) := by
  induction l with
  | nil => simp [splitOnce]
  | cons c cs ih =>
    have hc : c ≠ '_' := fun hc => h (by simp [hc])
    have hcs : ('_' : Char) ∉ cs := fun hm => h (by simp [hm])
    simp [splitOnce, hc, ih hcs]

theorem splitOnce_none (s : List Char) (h : ('_' : Char) ∉ s) :
    splitOnce s = none := by
  induction s with
  | nil => rfl
  | cons c cs ih =>
    have hc : c ≠ '_' := fun hc => h (by simp [hc])
    have hcs : ('_' : Char) ∉ cs := fun hm => h (by simp [hm])
    simp [splitOnce, hc, ih hcs]

theorem mul_add_lt_mul_add_iff (a b x y k : Nat) (hx : x < k) (hy : y < k) :
    a * k + x < b * k + y ↔ a < b ∨ (a = b ∧ x < y) := by
  rcases Nat.lt_trichotomy a b with h | h | h
  · constructor
    · intro _; exact Or.inl h
    · intro _
      calc a * k + x < a * k + k := by omega
        _ = (a + 1) * k := by ring
        _ ≤ b * k := Nat.mul_le_mul_right k h
        _ ≤ b * k + y := Nat.le_add_right _ _
  · subst h
    constructor
    · intro hlt; exact Or.inr ⟨rfl, by omega⟩
    · rintro (h1 | ⟨_, h1⟩) <;> omega
  · constructor
    · intro hlt
      exfalso
      have hba : b * k + y < a * k + x := by
        calc b * k + y < b * k + k := by omega
          _ = (b + 1) * k := by ring
          _ ≤ a * k := Nat.mul_le_mul_right k h
          _ ≤ a * k + x := Nat.le_add_right _ _
      omega
    · rintro (h1 | ⟨h1, _⟩) <;> omega

theorem lexLt_iff_fromBeBytes (as_ bs_ : List Nat) (hlen : as_.length = bs_.length)
    (ha : ∀ x ∈ as_, x < 256) (hb : ∀ x ∈ bs_, x < 256) :
    lexLt as_ bs_ = true ↔ fromBeBytes as_ < fromBeBytes bs_ := by
  induction as_ generalizing bs_ with
  | nil =>
    cases bs_ with
    | nil => simp [lexLt, fromBeBytes]
    | cons b bs_ => simp at hlen
  | cons a as_ ih =>
    cases bs_ with
    | nil => simp at hlen
    | cons b bs_ =>
      have hlen2 : as_.length = bs_.length := by simpa using hlen
      have ha2 : ∀ x ∈ as_, x < 256 := fun x hx => ha x (by simp [hx])
      have hb2 : ∀ x ∈ bs_, x < 256 := fun x hx => hb x (by simp [hx])
      have hbnd1 : fromBeBytes as_ < 256 ^ bs_.length := by
        have := fromBeBytes_lt_of_bounds as_ ha2
        rwa [hlen2] at this
      have hbnd2 : fromBeBytes bs_ < 256 ^ bs_.length := fromBeBytes_lt_of_bounds bs_ hb2
      simp only [fromBeBytes, lexLt, hlen2]
      rw [mul_add_lt_mul_add_iff a b _ _ (256 ^ bs_.length) hbnd1 hbnd2]
      split_ifs with h1 h2
      · simp [h1]
      · simp only [h2, true_and, lt_irrefl, false_or]
        exact ih bs_ hlen2 ha2 hb2
      · constructor
        · intro hf; cases hf
        · rintro (h3 | ⟨h3, _⟩) <;> omega

theorem stringifyBase32_ok (bs : List Nat) (h : IsIdBytes bs) :
    stringifyBase32 bs = .ok ((stringifyDigits (fromBeBytes bs)).map encodeSym) := by
  have hv : fromBeBytes bs < 32 ^ 13 := by
    have := fromBeBytes_lt_u64 bs h
    norm_num at this ⊢
    omega
  simp only [stringifyBase32]
  rw [if_pos hv]

theorem parseBase32_token (v : Nat) (hv : v < 2 ^ 64) :
    parseBase32 ((stringifyDigits v).map encodeSym) = .ok (toBeBytes v) := by
  have hlen : ((stringifyDigits v).map encodeSym).length = 13 := by
    simp [stringifyDigits]
  have hdec : decodeSymbols ((stringifyDigits v).map encodeSym) = .ok (stringifyDigits v) :=
    decodeSymbols_map_encodeSym _ (stringifyDigits_bounds v)
  have hhead : ¬ 16 ≤ (stringifyDigits v).headD 0 := by
    simp only [stringifyDigits, List.headD_cons]
    norm_num at hv ⊢
    omega
  have hrec : fromBase32Digits (stringifyDigits v) = v :=
    fromBase32_stringifyDigits v (by norm_num at hv ⊢; omega)
  simp only [parseBase32, hlen, if_pos, hdec, hhead, if_neg, hrec]
  rfl

theorem parseBase32_sep_mem (rest : List Char) (h : ('_' : Char) ∈ rest) :
    ∃ e, parseBase32 rest = .error e := by
  unfold parseBase32
  by_cases hl : rest.length = 13
  · rw [if_pos hl]
    obtain ⟨e, he⟩ := decodeSymbols_sep_mem rest h
    rw [he]
    exact ⟨e, rfl⟩
  · rw [if_neg hl]
    exact ⟨_, rfl⟩

/-! ## Claim theorems -/

/-- C1: for every 8-byte value and every logical type (a constant
`T::PREFIX` free of the separator, as the spec's data-model invariant
requires), formatting via the display contract and then parsing
succeeds and returns an identifier with the same payload bytes. -/
theorem C1_display_parse_roundtrip (pfx : List Char) (bs : List Nat)
    (hp : ('_' : Char) ∉ pfx) (hb : IsIdBytes bs) :
    parse pfx (format pfx (Id.new bs)) = .ok (Id.new bs) := by
  have hfmt : format pfx (Id.new bs)
      = pfx ++ '_' :: (stringifyDigits (fromBeBytes bs)).map encodeSym := by
    simp only [format, Id.new, stringifyBase32_ok bs hb]
  rw [hfmt]
  simp only [parse, splitOnce_append _ _ hp]
  rw [if_neg (by simp)]
  rw [parseBase32_token _ (fromBeBytes_lt_u64 bs hb)]
  rw [toBeBytes_fromBeBytes bs hb]

theorem C1_witness :
    parse "user".toList (format "user".toList (Id.new [1, 2, 3, 4, 5, 6, 7, 8]))
      = .ok (Id.new [1, 2, 3, 4, 5, 6, 7, 8]) :=
  C1_display_parse_roundtrip "user".toList [1, 2, 3, 4, 5, 6, 7, 8] (by decide) (by decide)

/-- C2: a string with no separator character parses to the
missing-separator error (`Error::InvalidData`, the spec's
`InvalidFormat` kind), for every logical type. -/
theorem C2_no_separator_invalid_format (pfx s : List Char) (h : ('_' : Char) ∉ s) :
    parse pfx s = .error .invalidData := by
  simp only [parse, splitOnce_none s h]

theorem C2_witness :
    parse "user".toList "nosubstringhere".toList = .error .invalidData :=
  C2_no_separator_invalid_format "user".toList "nosubstringhere".toList (by decide)

/-- C3, counterexample: the input `"user_x" ++ "_" ++ "y"` is of the
form `left ++ "_" ++ right` with `left = "user_x" ≠ "user"`, yet
`parse` for the logical type with constant `"user"` does not fail with
the mismatched-prefix error — the split happens at the first
separator, the left segment `"user"` matches, and the remainder
`"x_y"` fails payload decoding instead. -/
theorem C3_counterexample :
    "user_x".toList ≠ "user".toList ∧
    parse "user".toList ("user_x".toList ++ '_' :: "y".toList)
      = .error (.invalidPayload (.invalidLength 3)) := by
  decide

/-- C3, amended: for every string of the form `left ++ "_" ++ right`
where `left` contains no separator (so it is the segment before the
first separator) and differs from `T::PREFIX`, parsing fails with the
mismatched-prefix error carrying expected `T::PREFIX` and actual
`left`, regardless of the payload segment. -/
theorem C3_prefix_mismatch (pfx l r : List Char)
    (hl : ('_' : Char) ∉ l) (hne : l ≠ pfx) :
    parse pfx (l ++ '_' :: r) = .error (.prefixMismatch pfx l) := by
  simp only [parse, splitOnce_append l r hl]
  rw [if_pos hne]

theorem C3_witness :
    parse "user".toList ("order".toList ++ '_' :: "4n3y65asan4bj".toList)
      = .error (.prefixMismatch "user".toList "order".toList) :=
  C3_prefix_mismatch "user".toList "order".toList "4n3y65asan4bj".toList
    (by decide) (by decide)

/-- C4: the parser splits only at the first separator — for an input
`T::PREFIX ++ "_" ++ rest` the whole remainder `rest` is handed to the
codec, and a remainder still containing the separator fails codec
validation (wrapped as the payload error) rather than causing a
second split. -/
theorem C4_split_only_first (pfx rest : List Char) (hp : ('_' : Char) ∉ pfx) :
    parse pfx (pfx ++ '_' :: rest)
      = (match parseBase32 rest with
         | .error e => Except.error (.invalidPayload e)
         | .ok bs => Except.ok (Id.new bs)) ∧
    (('_' : Char) ∈ rest →
      ∃ e, parse pfx (pfx ++ '_' :: rest) = .error (.invalidPayload e)) := by
  have h1 : parse pfx (pfx ++ '_' :: rest)
      = (match parseBase32 rest with
         | .error e => Except.error (.invalidPayload e)
         | .ok bs => Except.ok (Id.new bs)) := by
    simp only [parse, splitOnce_append _ _ hp]
    rw [if_neg (by simp)]
  refine ⟨h1, fun hm => ?_⟩
  obtain ⟨e, he⟩ := parseBase32_sep_mem rest hm
  exact ⟨e, by rw [h1, he]⟩

theorem C4_witness :
    parse "user".toList ("user".toList ++ '_' :: "x_y".toList)
      = (match parseBase32 "x_y".toList with
         | .error e => Except.error (.invalidPayload e)
         | .ok bs => Except.ok (Id.new bs)) ∧
    (('_' : Char) ∈ "x_y".toList →
      ∃ e, parse "user".toList ("user".toList ++ '_' :: "x_y".toList)
        = .error (.invalidPayload e)) :=
  C4_split_only_first "user".toList "x_y".toList (by decide)

/-- C5: the `u64` and `i64` conversions round-trip through the
identical big-endian byte pattern, and `to_bytes` is the lossless
inverse of `new`. -/
theorem C5_integer_equivalence (v : Nat) (w : Int) (bs : List Nat)
    (hv : v < 2 ^ 64) (hw1 : -(2 ^ 63) ≤ w) (hw2 : w < 2 ^ 63) :
    (Id.fromU64 v).toU64 = v ∧
    (Id.fromI64 w).toI64 = w ∧
    (Id.new bs).toBytes = bs ∧
    (Id.fromI64 w).value = (Id.fromU64 (Int.toNat (w % 2 ^ 64))).value := by
  refine ⟨?_, ?_, rfl, rfl⟩
  · simp only [Id.fromU64, Id.toU64]
    exact fromBeBytes_toBeBytes v hv
  · have hmod1 : (0 : Int) ≤ w % 2 ^ 64 := Int.emod_nonneg w (by norm_num)
    have hmod2 : w % 2 ^ 64 < 2 ^ 64 := Int.emod_lt_of_pos w (by norm_num)
    have hn : Int.toNat (w % 2 ^ 64) < 2 ^ 64 := by omega
    simp only [Id.fromI64, Id.toI64]
    rw [fromBeBytes_toBeBytes _ hn]
    split_ifs with hsplit <;> omega

theorem C5_witness :
    (Id.fromU64 5).toU64 = 5 ∧
    (Id.fromI64 (-7)).toI64 = -7 ∧
    (Id.new [1, 2, 3, 4, 5, 6, 7, 8]).toBytes = [1, 2, 3, 4, 5, 6, 7, 8] ∧
    (Id.fromI64 (-7)).value = (Id.fromU64 (Int.toNat ((-7) % 2 ^ 64))).value :=
  C5_integer_equivalence 5 (-7) [1, 2, 3, 4, 5, 6, 7, 8]
    (by norm_num) (by norm_num) (by norm_num)

/-- C6: for well-formed identifiers of one logical type, the derived
strict order holds exactly when the 8-byte big-endian byte sequences
compare lexicographically, which holds exactly when the unsigned
integer interpretations compare. -/
theorem C6_ordering (a b : Id) (ha : IsIdBytes a.value) (hb : IsIdBytes b.value) :
    (a.lt b = true ↔ lexLt a.value b.value = true) ∧
    (a.lt b = true ↔ a.toU64 < b.toU64) := by
  refine ⟨Iff.rfl, ?_⟩
  exact lexLt_iff_fromBeBytes a.value b.value (by rw [ha.1, hb.1]) ha.2 hb.2

theorem C6_witness :
    ((Id.new [0, 0, 0, 0, 0, 0, 0, 1]).lt (Id.new [0, 0, 0, 0, 0, 0, 1, 0]) = true ↔
      lexLt [0, 0, 0, 0, 0, 0, 0, 1] [0, 0, 0, 0, 0, 0, 1, 0] = true) ∧
    ((Id.new [0, 0, 0, 0, 0, 0, 0, 1]).lt (Id.new [0, 0, 0, 0, 0, 0, 1, 0]) = true ↔
      (Id.new [0, 0, 0, 0, 0, 0, 0, 1]).toU64 < (Id.new [0, 0, 0, 0, 0, 0, 1, 0]).toU64) :=
  C6_ordering (Id.new [0, 0, 0, 0, 0, 0, 0, 1]) (Id.new [0, 0, 0, 0, 0, 0, 1, 0])
    (by decide) (by decide)

/-- C7: `test` is extensionally `parse(s).is_ok()`: it returns `true`
exactly when parsing succeeds. -/
theorem C7_test_equiv_parse (pfx s : List Char) :
    test pfx s = (parse pfx s).isOk ∧
    (test pfx s = true ↔ ∃ a, parse pfx s = .ok a) := by
  refine ⟨rfl, ?_⟩
  unfold test
  cases h : parse pfx s with
  | ok a => simp [Except.isOk, Except.toBool, h]
  | error e => simp [Except.isOk, Except.toBool, h]

/-- C8: with the separator present and the type's constant on the
left, a payload segment of length other than 13 fails with the
payload error wrapping the length error, and more generally every
codec decode failure is propagated as the payload error wrapping it. -/
theorem C8_payload_errors (pfx payload : List Char) (e : DecodeError)
    (hp : ('_' : Char) ∉ pfx) :
    (payload.length ≠ 13 →
      parse pfx (pfx ++ '_' :: payload)
        = .error (.invalidPayload (.invalidLength payload.length))) ∧
    (parseBase32 payload = .error e →
      parse pfx (pfx ++ '_' :: payload) = .error (.invalidPayload e)) := by
  have hbase : parse pfx (pfx ++ '_' :: payload)
      = (match parseBase32 payload with
         | .error e2 => Except.error (.invalidPayload e2)
         | .ok bs => Except.ok (Id.new bs)) := by
    simp only [parse, splitOnce_append _ _ hp]
    rw [if_neg (by simp)]
  constructor
  · intro hlen
    have hpb : parseBase32 payload = .error (.invalidLength payload.length) := by
      unfold parseBase32
      rw [if_neg hlen]
    rw [hbase, hpb]
  · intro he
    rw [hbase, he]

theorem C8_witness :
    ("tooshort".toList.length ≠ 13 →
      parse "user".toList ("user".toList ++ '_' :: "tooshort".toList)
        = .error (.invalidPayload (.invalidLength "tooshort".toList.length))) ∧
    (parseBase32 "tooshort".toList = .error (.invalidLength 8) →
      parse "user".toList ("user".toList ++ '_' :: "tooshort".toList)
        = .error (.invalidPayload (.invalidLength 8))) :=
  C8_payload_errors "user".toList "tooshort".toList (.invalidLength 8) (by decide)

/-- C9: the display operation emits exactly the constant, the
separator, and a 13-symbol codec token; the codec's failure branch
(whose surfacing would be the `expect` panic) is unreachable for every
8-byte payload. -/
theorem C9_display_format (pfx : List Char) (a : Id) (h : IsIdBytes a.value) :
    ∃ tok, stringifyBase32 a.value = .ok tok ∧ tok.length = 13 ∧
      format pfx a = pfx ++ '_' :: tok := by
  refine ⟨(stringifyDigits (fromBeBytes a.value)).map encodeSym,
    stringifyBase32_ok a.value h, ?_, ?_⟩
  · simp [stringifyDigits]
  · simp only [format, stringifyBase32_ok a.value h]

theorem C9_witness :
    ∃ tok, stringifyBase32 (Id.new [1, 2, 3, 4, 5, 6, 7, 8]).value = .ok tok ∧
      tok.length = 13 ∧
      format "user".toList (Id.new [1, 2, 3, 4, 5, 6, 7, 8])
        = "user".toList ++ '_' :: tok :=
  C9_display_format "user".toList (Id.new [1, 2, 3, 4, 5, 6, 7, 8]) (by decide)

/-- C10: the debug formatting delegates to the display formatting and
`FromStr::from_str` delegates to `Id::parse`; neither is an
alternative representation. -/
theorem C10_debug_fromstr_delegate (pfx s : List Char) (a : Id) :
    debugFmt pfx a = format pfx a ∧ fromStr pfx s = parse pfx s :=
  ⟨rfl, rfl⟩

end Souvenir
